import Mathlib

/-!
# Verification of the standard-cell legalizer

Shallow embedding of `src/standardcelllegalization.py`.

All geometry is axis-aligned rectangles; the source manipulates shapely
polygons but the legalizer only ever reads `.bounds`, translates rigidly,
tests pairwise intersection, and asks a containment oracle about the block
boundary.  Coordinates are embedded as exact rationals.  The block boundary
(an arbitrary simple polygon in the source) is abstracted as a containment
predicate `inside : Rect → Bool`, which is all `resolve_overlaps` ever uses
of it.  The iterative per-cell resolution loop is embedded with explicit
fuel; running out of fuel yields `none`, and the termination theorem shows
a concrete fuel bound under which `none` never occurs.
-/

namespace Legalizer

/-- An axis-aligned rectangle, identified with its `bounds` tuple
`(minx, miny, maxx, maxy)` exactly as the source reads it. -/
structure Rect where
  minx : ℚ
  miny : ℚ
  maxx : ℚ
  maxy : ℚ
deriving DecidableEq, Repr

/-- Rigid translation, `shapely.affinity.translate`. -/
def translate (r : Rect) (dx dy : ℚ) : Rect :=
  ⟨r.minx + dx, r.miny + dy, r.maxx + dx, r.maxy + dy⟩

/-- Python `round`: round to nearest integer, ties to even. -/
def pyRound (x : ℚ) : ℤ :=
  let f := ⌊x⌋
  if x - f < 1/2 then f
  else if 1/2 < x - f then f + 1
  else if f % 2 = 0 then f else f + 1

/-- `snap_to_grid(polygon, grid_size)`: translate the rectangle so that its
lower-left corner lands on the nearest grid multiple on each axis. -/
def snap_to_grid (r : Rect) (grid_size : ℚ) : Rect :=
  translate r (pyRound (r.minx / grid_size) * grid_size - r.minx)
              (pyRound (r.miny / grid_size) * grid_size - r.miny)

/-- `cell.intersects(other)`: closed-region intersection of two axis-aligned
rectangles (touching counts). -/
def intersects (a b : Rect) : Bool :=
  decide (a.minx ≤ b.maxx) && decide (b.minx ≤ a.maxx) &&
  decide (a.miny ≤ b.maxy) && decide (b.miny ≤ a.maxy)

/-- `has_overlap(cell, cells)`: some *other* (by value inequality, as
shapely's `!=` compares coordinates) rectangle of the list intersects `cell`. -/
def has_overlap (cell : Rect) (cells : List Rect) : Bool :=
  cells.any (fun other => other != cell && intersects cell other)

/-- The four move directions, in the dict-insertion order of the source. -/
inductive Dir where
  | left
  | right
  | up
  | down
deriving DecidableEq, Repr

/-- The `directions` dict: a displacement cost per direction,
`none` standing for `float("inf")`. -/
structure Costs where
  left : Option ℚ
  right : Option ℚ
  up : Option ℚ
  down : Option ℚ
deriving DecidableEq, Repr

/-- `min` of a possibly-infinite accumulator and a finite candidate. -/
def omin : Option ℚ → ℚ → Option ℚ
  | none, v => some v
  | some w, v => some (min w v)

/-- One step of the overlap scan in `compute_displacement`: tighten all four
direction costs against one `other` rectangle if it is a distinct,
intersecting cell. -/
def stepCosts (cell : Rect) (q : ℚ) (c : Costs) (other : Rect) : Costs :=
  if other != cell && intersects cell other then
    { left := omin c.left (cell.maxx - other.minx + q)
      right := omin c.right (other.maxx - cell.minx + q)
      up := omin c.up (other.maxy - cell.miny + q)
      down := omin c.down (cell.maxy - other.miny + q) }
  else c

/-- All four costs start at infinity. -/
def initCosts : Costs := ⟨none, none, none, none⟩

/-- The overlap scan of `compute_displacement`. -/
def scanCosts (cell : Rect) (cells : List Rect) (q : ℚ) : Costs :=
  cells.foldl (stepCosts cell q) initCosts

/-- The reference-extent filter of `compute_displacement`: invalidate a
direction when its leading edge would cross the corresponding side of the
hardcoded extent `[0,1000] × [0,2000]`. -/
def filterCosts (cell : Rect) (c : Costs) : Costs :=
  { left := match c.left with
      | none => none
      | some d => if cell.minx - d < 0 then none else some d
    right := match c.right with
      | none => none
      | some d => if cell.maxx + d > 1000 then none else some d
    up := match c.up with
      | none => none
      | some d => if cell.maxy + d > 2000 then none else some d
    down := match c.down with
      | none => none
      | some d => if cell.miny - d < 0 then none else some d }

/-- Strict comparison of possibly-infinite costs (`none` = `inf`).
`inf < inf` is false, matching IEEE `float("inf")`. -/
def costLt : Option ℚ → Option ℚ → Bool
  | some x, some y => decide (x < y)
  | some _, none => true
  | none, _ => false

/-- `min(directions, key=directions.get)`: scan the dict in insertion order
`left, right, up, down`, keeping the first strictly-smaller entry, so the
first minimum wins. -/
def bestDir (c : Costs) : Dir × Option ℚ :=
  [(Dir.right, c.right), (Dir.up, c.up), (Dir.down, c.down)].foldl
    (fun b p => if costLt p.2 b.2 then p else b) (Dir.left, c.left)

/-- `compute_displacement(cell, block_boundary, cells, grid_size)`.
The `block_boundary` argument is accepted and never used, as in the source
(the extent check is hardcoded). -/
def compute_displacement (cell : Rect) (_block_boundary : Rect → Bool)
    (cells : List Rect) (grid_size : ℚ) : Dir × Option ℚ :=
  bestDir (filterCosts cell (scanCosts cell cells grid_size))

/-- Apply the chosen translation of the resolution loop. -/
def applyMove (r : Rect) (d : Dir) (disp : ℚ) : Rect :=
  match d with
  | Dir.left => translate r (-disp) 0
  | Dir.right => translate r disp 0
  | Dir.up => translate r 0 disp
  | Dir.down => translate r 0 (-disp)

/-- How one rectangle's resolution loop exited. -/
inductive ExitKind where
  | normal
  | stuck
  | revertSeen
  | revertBoundary
  | oob
deriving DecidableEq, Repr

/-- The per-rectangle `while` loop of `resolve_overlaps`, with explicit fuel.
`original` is `original_cell`, `i` the rectangle's index, `cells` the shared
list, `cell` the loop variable, `seen` the `seen_positions` memo.
The loop condition is tested before any fuel is consumed, so `none` is
returned only when the loop genuinely wants another iteration. -/
def resolveCell (inside : Rect → Bool) (q : ℚ) (original : Rect) (i : ℕ) :
    ℕ → List Rect → Rect → List (Rect × Dir) → Option (List Rect × ExitKind)
  | fuel, cells, cell, seen =>
    if has_overlap cell cells || !(inside cell) then
      match fuel with
      | 0 => none
      | fuel + 1 =>
        match compute_displacement cell inside cells q with
        | (_, none) => some (cells, ExitKind.stuck)
        | (mv, some d) =>
          if (cell, mv) ∈ seen then
            some (cells.set i original, ExitKind.revertSeen)
          else if !(inside (applyMove cell mv d)) then
            some (cells.set i original, ExitKind.revertBoundary)
          else
            resolveCell inside q original i fuel
              (cells.set i (applyMove cell mv d)) (applyMove cell mv d)
              ((cell, mv) :: seen)
    else some (cells, ExitKind.normal)

/-- One iteration of the `for i, cell in enumerate(updated_cells)` loop:
resolve the rectangle at index `i` against the shared list. -/
def stepAt (inside : Rect → Bool) (q : ℚ) (fuel : ℕ) (cells : List Rect)
    (i : ℕ) : Option (List Rect × ExitKind) :=
  match cells[i]? with
  | none => some (cells, ExitKind.oob)
  | some cell => resolveCell inside q cell i fuel cells cell []

/-- Run the first `m` iterations of the `for` loop of `resolve_overlaps`. -/
def runTo (inside : Rect → Bool) (q : ℚ) (fuel : ℕ) (snapped : List Rect) :
    ℕ → Option (List Rect)
  | 0 => some snapped
  | m + 1 => (runTo inside q fuel snapped m).bind
      (fun cs => (stepAt inside q fuel cs m).map Prod.fst)

/-- `resolve_overlaps(cells, block_boundary, grid_size)`: snap every cell to
the grid, then resolve each one in index order against the shared list, and
return the updated list. -/
def resolve_overlaps (inside : Rect → Bool) (q : ℚ) (fuel : ℕ)
    (cells : List Rect) : Option (List Rect) :=
  runTo inside q fuel (cells.map (fun c => snap_to_grid c q))
    (cells.map (fun c => snap_to_grid c q)).length

/-- `x` is an integer multiple of the quantum `q`. -/
def isMultipleOf (x q : ℚ) : Prop := ∃ k : ℤ, x = (k : ℚ) * q

/-- Containment in the axis-aligned reference extent `[0,1000] × [0,2000]`. -/
def inExtent (r : Rect) : Bool :=
  decide (0 ≤ r.minx) && decide (r.maxx ≤ 1000) &&
  decide (0 ≤ r.miny) && decide (r.maxy ≤ 2000)

/-! ## Specification-side mirror of `compute_displacement`

The following definitions are written from the words of the claim about
`compute_displacement` ("each direction's cost is the minimum over all other
intersecting rectangles of the separation distance along that axis plus `q`
…, any direction whose resulting position would leave the reference extent
is set to infinity, and the returned direction is the first of the fixed
order left, right, up, down attaining the minimum cost"), to be compared
against the fold-based implementation above. -/

/-- Minimum of a list of rationals, `none` on the empty list. -/
def listMin : List ℚ → Option ℚ
  | [] => none
  | a :: l =>
    some (match listMin l with
      | none => a
      | some b => min a b)

/-- Minimum of two possibly-infinite costs. -/
def omin2 : Option ℚ → Option ℚ → Option ℚ
  | none, b => b
  | some a, none => some a
  | some a, some b => some (min a b)

/-- The *other* rectangles of the set currently intersecting `cell`. -/
def overlappers (cell : Rect) (cells : List Rect) : List Rect :=
  cells.filter (fun o => o != cell && intersects cell o)

/-- Separation distance along the axis of direction `d` from an overlapping
rectangle `o`, plus one grid quantum of clearance. -/
def sepDist (cell : Rect) (q : ℚ) (d : Dir) (o : Rect) : ℚ :=
  match d with
  | Dir.left => cell.maxx - o.minx + q
  | Dir.right => o.maxx - cell.minx + q
  | Dir.up => o.maxy - cell.miny + q
  | Dir.down => cell.maxy - o.miny + q

/-- Claim-side raw cost of direction `d`: the minimum separation distance
over all other intersecting rectangles, infinity if there are none. -/
def specRawCost (cell : Rect) (cells : List Rect) (q : ℚ) (d : Dir) :
    Option ℚ :=
  listMin ((overlappers cell cells).map (sepDist cell q d))

/-- Claim-side filtered cost: invalidate a direction whose *resulting
position* would leave the reference extent `[0,1000] × [0,2000]`. -/
def specCostClaim (cell : Rect) (cells : List Rect) (q : ℚ) (d : Dir) :
    Option ℚ :=
  match specRawCost cell cells q d with
  | none => none
  | some v => if inExtent (applyMove cell d v) then some v else none

/-- The leading-edge feasibility check the implementation actually performs:
only the edge that moves toward the extent side is compared. -/
def edgeOk (cell : Rect) (d : Dir) (v : ℚ) : Bool :=
  match d with
  | Dir.left => !decide (cell.minx - v < 0)
  | Dir.right => !decide (cell.maxx + v > 1000)
  | Dir.up => !decide (cell.maxy + v > 2000)
  | Dir.down => !decide (cell.miny - v < 0)

/-- Amended-claim filtered cost: invalidate a direction whose *leading edge*
would cross the corresponding side of the reference extent. -/
def specCostAmended (cell : Rect) (cells : List Rect) (q : ℚ) (d : Dir) :
    Option ℚ :=
  match specRawCost cell cells q d with
  | none => none
  | some v => if edgeOk cell d v then some v else none

/-- The fixed enumeration order of directions. -/
def dirList : List Dir := [Dir.left, Dir.right, Dir.up, Dir.down]

/-- The minimum of the four direction costs. -/
def min4 (f : Dir → Option ℚ) : Option ℚ :=
  omin2 (omin2 (f Dir.left) (f Dir.right)) (omin2 (f Dir.up) (f Dir.down))

/-- Return the first direction of the fixed order attaining the minimum
cost, together with that minimum. -/
def specSelect (f : Dir → Option ℚ) : Dir × Option ℚ :=
  ((dirList.find? (fun d => f d == min4 f)).getD Dir.left, min4 f)

/-- The claim's description of `compute_displacement`, verbatim reading
(extent filter = containment of the resulting position). -/
def specDispClaim (cell : Rect) (cells : List Rect) (q : ℚ) :
    Dir × Option ℚ :=
  specSelect (specCostClaim cell cells q)

/-- The amended description of `compute_displacement` (extent filter =
leading-edge check). -/
def specDispAmended (cell : Rect) (cells : List Rect) (q : ℚ) :
    Dir × Option ℚ :=
  specSelect (specCostAmended cell cells q)

/-- Projection of the `directions` dict at a direction. -/
def dirCost (c : Costs) : Dir → Option ℚ
  | Dir.left => c.left
  | Dir.right => c.right
  | Dir.up => c.up
  | Dir.down => c.down

/-! ## Concrete boundary oracles used by witnesses and counterexamples -/

/-- A boundary that contains every rectangle. -/
def trueInside : Rect → Bool := fun _ => true

/-- A boundary polygon admitting only rectangles below `y = 100`
(any rectangle strip `[0,1000] × [0,100]` realises it). -/
def lowInside : Rect → Bool := fun r => decide (r.maxy ≤ 100)

/-- A boundary polygon admitting only rectangles left of `x = 50`. -/
def narrowInside : Rect → Bool := fun r => decide (r.maxx ≤ 50)

/-! ## Candidate-position bookkeeping for the termination bound

During one rectangle's resolution loop every other rectangle of the shared
list is fixed, and every committed move lands one edge of the moving
rectangle at `q` clearance from the edge of the overlapping rectangle that
achieved the minimum cost.  Hence all positions the loop can reach live in
a product of two finite candidate sets derived from the fixed list. -/

/-- All four directions as a finite set. -/
def dirAll : Finset Dir := {Dir.left, Dir.right, Dir.up, Dir.down}

/-- Candidate `minx` values reachable by the loop: the starting value, or
`q` and one width away from a vertical edge of a rectangle of `F`. -/
def xCands (F : List Rect) (c0 : Rect) (q w : ℚ) : Finset ℚ :=
  insert c0.minx
    ((F.map (fun o => o.minx - q - w)).toFinset ∪
      (F.map (fun o => o.maxx + q)).toFinset)

/-- Candidate `miny` values reachable by the loop. -/
def yCands (F : List Rect) (c0 : Rect) (q h : ℚ) : Finset ℚ :=
  insert c0.miny
    ((F.map (fun o => o.miny - q - h)).toFinset ∪
      (F.map (fun o => o.maxy + q)).toFinset)

/-- A memo entry reduced to the data that can actually vary: the lower-left
corner of the recorded bounds and the chosen direction (the upper-right
corner is determined by the rectangle's rigid width and height). -/
def seenKey (p : Rect × Dir) : (ℚ × ℚ) × Dir := ((p.1.minx, p.1.miny), p.2)

/-- The finite superset of all memo keys one rectangle's loop can record. -/
def keySet (F : List Rect) (c0 : Rect) (q w h : ℚ) :
    Finset ((ℚ × ℚ) × Dir) :=
  (xCands F c0 q w ×ˢ yCands F c0 q h) ×ˢ dirAll

/-- Fuel sufficient for any single rectangle's loop in a list of `n` cells:
one more than the largest possible number of distinct memo keys. -/
def termFuel (n : ℕ) : ℕ := 4 * (2 * n + 1) ^ 2 + 1

/-! ## Grid snapping: basic lemmas, idempotence (C6), corner multiples (C7) -/

theorem pyRound_intCast (k : ℤ) : pyRound (k : ℚ) = k := by
  simp [pyRound]

theorem snap_minx (r : Rect) (q : ℚ) :
    (snap_to_grid r q).minx = (pyRound (r.minx / q) : ℚ) * q := by
  simp [snap_to_grid, translate]

theorem snap_miny (r : Rect) (q : ℚ) :
    (snap_to_grid r q).miny = (pyRound (r.miny / q) : ℚ) * q := by
  simp [snap_to_grid, translate]

/-- **C6.** Grid snapping is idempotent for every rectangle and every
positive quantum. -/
theorem C6_snap_idempotent (r : Rect) (q : ℚ) (hq : 0 < q) :
    snap_to_grid (snap_to_grid r q) q = snap_to_grid r q := by
  have hq0 : q ≠ 0 := ne_of_gt hq
  have hx : (snap_to_grid r q).minx / q = (pyRound (r.minx / q) : ℚ) := by
    rw [snap_minx, mul_div_assoc, div_self hq0, mul_one]
  have hy : (snap_to_grid r q).miny / q = (pyRound (r.miny / q) : ℚ) := by
    rw [snap_miny, mul_div_assoc, div_self hq0, mul_one]
  show translate (snap_to_grid r q) _ _ = snap_to_grid r q
  rw [hx, hy, pyRound_intCast, pyRound_intCast, snap_minx, snap_miny]
  simp [translate]

/-- **C6 witness.** Idempotence instantiated at a concrete rectangle and
quantum. -/
theorem C6_snap_idempotent_witness :
    (0 : ℚ) < 20 ∧
      snap_to_grid (snap_to_grid ⟨5, 7, 30, 40⟩ 20) 20 =
        snap_to_grid ⟨5, 7, 30, 40⟩ 20 :=
  ⟨by norm_num, C6_snap_idempotent ⟨5, 7, 30, 40⟩ 20 (by norm_num)⟩

unseal Rat.add Rat.sub Rat.mul Rat.inv in
/-- **C7 counterexample.** After snapping the rectangle `(0,0,15,15)` with
quantum `20`, its corner `maxx` equals `15`, which is not an integer
multiple of `20`: snapping translates rigidly by the offset of the
lower-left corner only, so `maxx`/`maxy` need not land on the grid. -/
theorem C7_counterexample :
    (snap_to_grid ⟨0, 0, 15, 15⟩ 20).maxx = 15 ∧
      ¬ isMultipleOf (snap_to_grid ⟨0, 0, 15, 15⟩ 20).maxx 20 := by
  have h15 : (snap_to_grid ⟨0, 0, 15, 15⟩ 20).maxx = 15 := by decide
  refine ⟨h15, ?_⟩
  rw [h15]
  rintro ⟨k, hk⟩
  have h4 : ((4 * k : ℤ) : ℚ) = 3 := by push_cast; linarith
  have h4' : (4 * k : ℤ) = 3 := by exact_mod_cast h4
  omega

/-- **C7 (amended).** After the initial snap, the lower-left corner
(`minx`, `miny`) of every rectangle is an integer multiple of the quantum;
the upper-right corner is one exactly when the rectangle's width
(respectively height) is itself a multiple of the quantum — snapping is a
rigid translation, so the snapped width and height equal the original
ones. -/
theorem C7_amended (r : Rect) (q : ℚ) :
    isMultipleOf (snap_to_grid r q).minx q ∧
      isMultipleOf (snap_to_grid r q).miny q ∧
      (isMultipleOf (snap_to_grid r q).maxx q ↔
        isMultipleOf (r.maxx - r.minx) q) ∧
      (isMultipleOf (snap_to_grid r q).maxy q ↔
        isMultipleOf (r.maxy - r.miny) q) := by
  have hmx : (snap_to_grid r q).maxx =
      r.maxx + ((pyRound (r.minx / q) : ℚ) * q - r.minx) := by
    simp [snap_to_grid, translate]
  have hmy : (snap_to_grid r q).maxy =
      r.maxy + ((pyRound (r.miny / q) : ℚ) * q - r.miny) := by
    simp [snap_to_grid, translate]
  refine ⟨⟨pyRound (r.minx / q), snap_minx r q⟩,
    ⟨pyRound (r.miny / q), snap_miny r q⟩, ⟨?_, ?_⟩, ⟨?_, ?_⟩⟩
  · rintro ⟨m, hm⟩
    refine ⟨m - pyRound (r.minx / q), ?_⟩
    rw [hmx] at hm
    push_cast
    linarith
  · rintro ⟨m, hm⟩
    refine ⟨m + pyRound (r.minx / q), ?_⟩
    rw [hmx]
    push_cast
    linarith
  · rintro ⟨m, hm⟩
    refine ⟨m - pyRound (r.miny / q), ?_⟩
    rw [hmy] at hm
    push_cast
    linarith
  · rintro ⟨m, hm⟩
    refine ⟨m + pyRound (r.miny / q), ?_⟩
    rw [hmy]
    push_cast
    linarith

/-- **C7 (amended) witness.** For the rectangle `(0,0,40,40)` and quantum
`20`, both corners land on grid multiples after snapping, the upper-right
one via the equivalence with the width being a multiple. -/
theorem C7_amended_witness :
    isMultipleOf (snap_to_grid ⟨0, 0, 40, 40⟩ 20).minx 20 ∧
      isMultipleOf (snap_to_grid ⟨0, 0, 40, 40⟩ 20).maxx 20 :=
  ⟨(C7_amended ⟨0, 0, 40, 40⟩ 20).1,
    (C7_amended ⟨0, 0, 40, 40⟩ 20).2.2.1.mpr ⟨2, by norm_num⟩⟩

/-! ## Order facts about possibly-infinite costs -/

theorem costLt_irrefl (a : Option ℚ) : costLt a a = false := by
  cases a <;> simp [costLt]

theorem costLt_asymm {a b : Option ℚ} (h : costLt a b = true) :
    costLt b a = false := by
  cases a <;> cases b <;> simp_all [costLt] <;> linarith

theorem costLt_trans {a b c : Option ℚ} (hab : costLt a b = true)
    (hbc : costLt b c = true) : costLt a c = true := by
  cases a <;> cases b <;> cases c <;> simp_all [costLt] <;> linarith

theorem costLt_trans_tf {a b c : Option ℚ} (hab : costLt a b = true)
    (hcb : costLt c b = false) : costLt a c = true := by
  cases a <;> cases b <;> cases c <;> simp_all [costLt] <;> linarith

theorem costLt_false_trans {a b c : Option ℚ} (hab : costLt a b = false)
    (hbc : costLt b c = false) : costLt a c = false := by
  cases a <;> cases b <;> cases c <;> simp_all [costLt] <;> linarith

theorem costLt_eq {a b : Option ℚ} (hab : costLt a b = false)
    (hba : costLt b a = false) : a = b := by
  cases a <;> cases b <;> simp_all [costLt]
  linarith

theorem omin2_eq_right {a b : Option ℚ} (h : costLt b a = true) :
    omin2 a b = b := by
  cases a with
  | none =>
    cases b with
    | none => simp [costLt] at h
    | some y => rfl
  | some x =>
    cases b with
    | none => simp [costLt] at h
    | some y =>
      simp only [costLt, decide_eq_true_eq] at h
      simp [omin2, min_eq_right (le_of_lt h)]

theorem omin2_eq_left {a b : Option ℚ} (h : costLt b a = false) :
    omin2 a b = a := by
  cases a with
  | none =>
    cases b with
    | none => rfl
    | some y => simp [costLt] at h
  | some x =>
    cases b with
    | none => rfl
    | some y =>
      simp only [costLt, decide_eq_false_iff_not] at h
      simp [omin2, min_eq_left (le_of_not_lt h)]

/-! ## The overlap scan computes the minimum separation distance -/

theorem listMin_mem : ∀ {l : List ℚ} {a : ℚ}, listMin l = some a → a ∈ l := by
  intro l
  induction l with
  | nil => intro a h; simp [listMin] at h
  | cons b l ih =>
    intro a h
    simp only [listMin] at h
    cases hm : listMin l with
    | none =>
      rw [hm] at h
      simp only [Option.some.injEq] at h
      simp [← h]
    | some c =>
      rw [hm] at h
      simp only [Option.some.injEq] at h
      rcases min_choice b c with hbc | hbc
      · simp [← h, hbc]
      · have : a = c := by rw [← h, hbc]
        simp [this, ih hm]

theorem foldl_omin_eq (g : Rect → Bool) (f : Rect → ℚ) :
    ∀ (l : List Rect) (acc : Option ℚ),
      l.foldl (fun a o => if g o then omin a (f o) else a) acc =
        omin2 acc (listMin ((l.filter g).map f)) := by
  intro l
  induction l with
  | nil =>
    intro acc
    cases acc <;> simp [listMin, omin2]
  | cons o l ih =>
    intro acc
    by_cases hg : g o
    · simp only [List.foldl_cons, hg, if_true, List.filter_cons_of_pos,
        List.map_cons]
      rw [ih]
      cases acc with
      | none =>
        cases hm : listMin ((l.filter g).map f) with
        | none => simp [omin, omin2, listMin, hm]
        | some b => simp [omin, omin2, listMin, hm]
      | some a =>
        cases hm : listMin ((l.filter g).map f) with
        | none => simp [omin, omin2, listMin, hm]
        | some b => simp [omin, omin2, listMin, hm, min_assoc]
    · simp only [List.foldl_cons, hg, if_false, List.filter_cons_of_neg,
        Bool.false_eq_true, not_false_iff]
      exact ih acc

theorem scanCosts_proj (cell : Rect) (q : ℚ) (proj : Costs → Option ℚ)
    (fp : Rect → ℚ)
    (hstep : ∀ c o, proj (stepCosts cell q c o) =
      if o != cell && intersects cell o then omin (proj c) (fp o)
      else proj c) :
    ∀ (l : List Rect) (c0 : Costs),
      proj (l.foldl (stepCosts cell q) c0) =
        l.foldl
          (fun a o => if o != cell && intersects cell o then omin a (fp o)
            else a)
          (proj c0) := by
  intro l
  induction l with
  | nil => intro c0; rfl
  | cons o l ih =>
    intro c0
    simp only [List.foldl_cons, ih, hstep]

theorem scanCosts_eq_raw (cell : Rect) (cells : List Rect) (q : ℚ) (d : Dir) :
    dirCost (scanCosts cell cells q) d = specRawCost cell cells q d := by
  have key : ∀ (proj : Costs → Option ℚ),
      (∀ c o, proj (stepCosts cell q c o) =
        if o != cell && intersects cell o then omin (proj c) (sepDist cell q d o)
        else proj c) →
      proj initCosts = none →
      dirCost (scanCosts cell cells q) d = proj (scanCosts cell cells q) →
      dirCost (scanCosts cell cells q) d = specRawCost cell cells q d := by
    intro proj hstep hinit hdc
    rw [hdc, scanCosts, scanCosts_proj cell q proj (sepDist cell q d) hstep,
      hinit, foldl_omin_eq]
    simp only [specRawCost, overlappers, omin2]
  cases d with
  | left =>
    refine key Costs.left (fun c o => ?_) rfl rfl
    simp only [stepCosts, sepDist, apply_ite Costs.left]
  | right =>
    refine key Costs.right (fun c o => ?_) rfl rfl
    simp only [stepCosts, sepDist, apply_ite Costs.right]
  | up =>
    refine key Costs.up (fun c o => ?_) rfl rfl
    simp only [stepCosts, sepDist, apply_ite Costs.up]
  | down =>
    refine key Costs.down (fun c o => ?_) rfl rfl
    simp only [stepCosts, sepDist, apply_ite Costs.down]

/-! ## The extent filter is a leading-edge check -/

theorem filterCosts_eq (cell : Rect) (c : Costs) (d : Dir) :
    dirCost (filterCosts cell c) d =
      match dirCost c d with
      | none => none
      | some v => if edgeOk cell d v then some v else none := by
  cases d with
  | left =>
    cases hc : c.left with
    | none => simp [filterCosts, dirCost, hc]
    | some v =>
      simp only [filterCosts, dirCost, hc, edgeOk]
      by_cases h : cell.minx - v < 0 <;> simp [h]
  | right =>
    cases hc : c.right with
    | none => simp [filterCosts, dirCost, hc]
    | some v =>
      simp only [filterCosts, dirCost, hc, edgeOk]
      by_cases h : cell.maxx + v > 1000 <;> simp [h]
  | up =>
    cases hc : c.up with
    | none => simp [filterCosts, dirCost, hc]
    | some v =>
      simp only [filterCosts, dirCost, hc, edgeOk]
      by_cases h : cell.maxy + v > 2000 <;> simp [h]
  | down =>
    cases hc : c.down with
    | none => simp [filterCosts, dirCost, hc]
    | some v =>
      simp only [filterCosts, dirCost, hc, edgeOk]
      by_cases h : cell.miny - v < 0 <;> simp [h]

/-! ## The fold-based selection picks the first direction attaining the
minimum cost -/

theorem bestDir_cases (c : Costs) :
    bestDir c = (Dir.left, c.left) ∨ bestDir c = (Dir.right, c.right) ∨
      bestDir c = (Dir.up, c.up) ∨ bestDir c = (Dir.down, c.down) := by
  unfold bestDir
  simp only [List.foldl_cons, List.foldl_nil]
  split_ifs <;> tauto

theorem bestDir_eq_specSelect (c : Costs) :
    bestDir c = specSelect (dirCost c) := by
  have hne : ∀ {a b : Option ℚ}, costLt a b = true → (b == a) = false := by
    intro a b h
    rcases hbe : b == a with _ | _
    · rfl
    · have hba : b = a := by simpa using hbe
      subst hba
      simp [costLt_irrefl] at h
  cases h1 : costLt c.right c.left with
  | true =>
    cases h2 : costLt c.up c.right with
    | true =>
      cases h3 : costLt c.down c.up with
      | true =>
        -- result (down, D); D < U < R < L
        have hDR : costLt c.down c.right = true := costLt_trans h3 h2
        have hDL : costLt c.down c.left = true := costLt_trans hDR h1
        have hm : omin2 (omin2 c.left c.right) (omin2 c.up c.down) =
            c.down := by
          rw [omin2_eq_right h1, omin2_eq_right h3, omin2_eq_right hDR]
        simp [bestDir, specSelect, min4, dirList, dirCost, h1, h2, h3, hm,
          hne hDL, hne hDR, hne h3, List.find?]
      | false =>
        -- result (up, U); U < R < L, U ≤ D
        have hUL : costLt c.up c.left = true := costLt_trans h2 h1
        have hm : omin2 (omin2 c.left c.right) (omin2 c.up c.down) =
            c.up := by
          rw [omin2_eq_right h1, omin2_eq_left h3, omin2_eq_right h2]
        simp [bestDir, specSelect, min4, dirList, dirCost, h1, h2, h3, hm,
          hne hUL, hne h2, List.find?]
    | false =>
      cases h3 : costLt c.down c.right with
      | true =>
        -- result (down, D); D < R < L, R ≤ U
        have hDU : costLt c.down c.up = true := costLt_trans_tf h3 h2
        have hDL : costLt c.down c.left = true := costLt_trans h3 h1
        have hm : omin2 (omin2 c.left c.right) (omin2 c.up c.down) =
            c.down := by
          rw [omin2_eq_right h1, omin2_eq_right hDU, omin2_eq_right h3]
        simp [bestDir, specSelect, min4, dirList, dirCost, h1, h2, h3, hm,
          hne hDL, hne h3, hne hDU, List.find?]
      | false =>
        -- result (right, R); R < L, R ≤ U, R ≤ D
        have hm : omin2 (omin2 c.left c.right) (omin2 c.up c.down) =
            c.right := by
          rw [omin2_eq_right h1]
          cases hud : costLt c.down c.up with
          | true => rw [omin2_eq_right hud, omin2_eq_left h3]
          | false => rw [omin2_eq_left hud, omin2_eq_left h2]
        simp [bestDir, specSelect, min4, dirList, dirCost, h1, h2, h3, hm,
          hne h1, List.find?]
  | false =>
    cases h2 : costLt c.up c.left with
    | true =>
      cases h3 : costLt c.down c.up with
      | true =>
        -- result (down, D); D < U < L ≤ R
        have hDL : costLt c.down c.left = true := costLt_trans h3 h2
        have hDR : costLt c.down c.right = true := costLt_trans_tf hDL h1
        have hm : omin2 (omin2 c.left c.right) (omin2 c.up c.down) =
            c.down := by
          rw [omin2_eq_left h1, omin2_eq_right h3, omin2_eq_right hDL]
        simp [bestDir, specSelect, min4, dirList, dirCost, h1, h2, h3, hm,
          hne hDL, hne hDR, hne h3, List.find?]
      | false =>
        -- result (up, U); U < L ≤ R, U ≤ D
        have hUR : costLt c.up c.right = true := costLt_trans_tf h2 h1
        have hm : omin2 (omin2 c.left c.right) (omin2 c.up c.down) =
            c.up := by
          rw [omin2_eq_left h1, omin2_eq_left h3, omin2_eq_right h2]
        simp [bestDir, specSelect, min4, dirList, dirCost, h1, h2, h3, hm,
          hne h2, hne hUR, List.find?]
    | false =>
      cases h3 : costLt c.down c.left with
      | true =>
        -- result (down, D); D < L ≤ R, L ≤ U
        have hDU : costLt c.down c.up = true := costLt_trans_tf h3 h2
        have hDR : costLt c.down c.right = true := costLt_trans_tf h3 h1
        have hm : omin2 (omin2 c.left c.right) (omin2 c.up c.down) =
            c.down := by
          rw [omin2_eq_left h1, omin2_eq_right hDU, omin2_eq_right h3]
        simp [bestDir, specSelect, min4, dirList, dirCost, h1, h2, h3, hm,
          hne h3, hne hDR, hne hDU, List.find?]
      | false =>
        -- result (left, L); L ≤ R, L ≤ U, L ≤ D
        have hm : omin2 (omin2 c.left c.right) (omin2 c.up c.down) =
            c.left := by
          rw [omin2_eq_left h1]
          cases hud : costLt c.down c.up with
          | true => rw [omin2_eq_right hud, omin2_eq_left h3]
          | false => rw [omin2_eq_left hud, omin2_eq_left h2]
        simp [bestDir, specSelect, min4, dirList, dirCost, h1, h2, h3, hm,
          List.find?]

/-! ## compute_displacement: counterexample and amended theorem (C4) -/

unseal Rat.add Rat.sub Rat.mul Rat.inv in
/-- **C4 counterexample.** For the cell `(1100,0,1200,100)` overlapping
`(1150,0,1300,100)` with quantum `20`, the implementation returns
`(left, 70)` although the resulting position `(1030,0,1130,100)` of the
left move lies outside the reference extent `[0,1000] × [0,2000]`; the
claim's reading of the extent filter would instead return infinite cost
for every direction.  The code checks only the leading edge of each move,
not containment of the resulting position. -/
theorem C4_counterexample :
    compute_displacement ⟨1100, 0, 1200, 100⟩ inExtent
        [⟨1100, 0, 1200, 100⟩, ⟨1150, 0, 1300, 100⟩] 20 =
      (Dir.left, some 70) ∧
    inExtent (applyMove ⟨1100, 0, 1200, 100⟩ Dir.left 70) = false ∧
    specDispClaim ⟨1100, 0, 1200, 100⟩
        [⟨1100, 0, 1200, 100⟩, ⟨1150, 0, 1300, 100⟩] 20 =
      (Dir.left, none) := by
  decide

/-- **C4 (amended).** `compute_displacement` returns exactly the direction
and cost described by the claim, with the extent clause amended to the
leading-edge check the code performs: each direction's cost is the minimum
over all other intersecting rectangles of the axis separation distance plus
`q` (infinity if none intersects); a direction is invalidated when its
leading edge would cross the corresponding side of the extent
(`minx − cost < 0`, `maxx + cost > 1000`, `miny − cost < 0`,
`maxy + cost > 2000`); the returned direction is the first of the order
left, right, up, down attaining the minimum cost. -/
theorem C4_amended (cell : Rect) (bb : Rect → Bool) (cells : List Rect)
    (q : ℚ) :
    compute_displacement cell bb cells q = specDispAmended cell cells q := by
  unfold compute_displacement specDispAmended
  rw [bestDir_eq_specSelect]
  have hf : dirCost (filterCosts cell (scanCosts cell cells q)) =
      specCostAmended cell cells q := by
    funext d
    rw [filterCosts_eq, scanCosts_eq_raw]
    rfl
  rw [hf]

/-! ## Branch lemmas for the resolution loop -/

theorem resolveCell_exit {inside : Rect → Bool} {q : ℚ} {original : Rect}
    {i fuel : ℕ} {cells : List Rect} {cell : Rect} {seen : List (Rect × Dir)}
    (h : (has_overlap cell cells || !(inside cell)) = false) :
    resolveCell inside q original i fuel cells cell seen =
      some (cells, ExitKind.normal) := by
  rw [resolveCell.eq_def]
  simp [h]

theorem resolveCell_zero {inside : Rect → Bool} {q : ℚ} {original : Rect}
    {i : ℕ} {cells : List Rect} {cell : Rect} {seen : List (Rect × Dir)}
    (h : (has_overlap cell cells || !(inside cell)) = true) :
    resolveCell inside q original i 0 cells cell seen = none := by
  rw [resolveCell, h]
  simp

theorem resolveCell_stuck {inside : Rect → Bool} {q : ℚ} {original : Rect}
    {i fuel : ℕ} {cells : List Rect} {cell : Rect} {seen : List (Rect × Dir)}
    {mv : Dir}
    (h : (has_overlap cell cells || !(inside cell)) = true)
    (hbd : compute_displacement cell inside cells q = (mv, none)) :
    resolveCell inside q original i (fuel + 1) cells cell seen =
      some (cells, ExitKind.stuck) := by
  rw [resolveCell, h, hbd]
  simp

theorem resolveCell_revertSeen {inside : Rect → Bool} {q : ℚ}
    {original : Rect} {i fuel : ℕ} {cells : List Rect} {cell : Rect}
    {seen : List (Rect × Dir)} {mv : Dir} {d : ℚ}
    (h : (has_overlap cell cells || !(inside cell)) = true)
    (hbd : compute_displacement cell inside cells q = (mv, some d))
    (hseen : (cell, mv) ∈ seen) :
    resolveCell inside q original i (fuel + 1) cells cell seen =
      some (cells.set i original, ExitKind.revertSeen) := by
  rw [resolveCell, h, hbd]
  simp [hseen]

theorem resolveCell_revertBoundary {inside : Rect → Bool} {q : ℚ}
    {original : Rect} {i fuel : ℕ} {cells : List Rect} {cell : Rect}
    {seen : List (Rect × Dir)} {mv : Dir} {d : ℚ}
    (h : (has_overlap cell cells || !(inside cell)) = true)
    (hbd : compute_displacement cell inside cells q = (mv, some d))
    (hseen : (cell, mv) ∉ seen)
    (hin : inside (applyMove cell mv d) = false) :
    resolveCell inside q original i (fuel + 1) cells cell seen =
      some (cells.set i original, ExitKind.revertBoundary) := by
  rw [resolveCell, h, hbd]
  simp [hseen, hin]

theorem resolveCell_commit {inside : Rect → Bool} {q : ℚ} {original : Rect}
    {i fuel : ℕ} {cells : List Rect} {cell : Rect} {seen : List (Rect × Dir)}
    {mv : Dir} {d : ℚ}
    (h : (has_overlap cell cells || !(inside cell)) = true)
    (hbd : compute_displacement cell inside cells q = (mv, some d))
    (hseen : (cell, mv) ∉ seen)
    (hin : inside (applyMove cell mv d) = true) :
    resolveCell inside q original i (fuel + 1) cells cell seen =
      resolveCell inside q original i fuel
        (cells.set i (applyMove cell mv d)) (applyMove cell mv d)
        ((cell, mv) :: seen) := by
  rw [resolveCell, h, hbd]
  simp [hseen, hin]

/-! ## Structural facts about one rectangle's resolution -/

theorem lt_length_of_getElem? {l : List Rect} {i : ℕ} {a : Rect}
    (h : l[i]? = some a) : i < l.length := by
  by_contra hn
  rw [List.getElem?_eq_none (le_of_not_lt hn)] at h
  exact absurd h (by simp)

/-- Everything C1-C3 need about one rectangle's loop: the list keeps its
length, only index `i` is written, and the final entry at `i` is the
original (on a revert), a boundary-checked committed position, or the
original still; a `normal` exit certifies no overlap and containment at
exit time. -/
theorem resolveCell_main (inside : Rect → Bool) (q : ℚ) (original : Rect)
    (i : ℕ) (fuel : ℕ) :
    ∀ (cells : List Rect) (cell : Rect) (seen : List (Rect × Dir))
      (cells' : List Rect) (tag : ExitKind),
      resolveCell inside q original i fuel cells cell seen =
        some (cells', tag) →
      cells[i]? = some cell →
      (cell = original ∨ inside cell = true) →
      cells'.length = cells.length ∧
        (∀ j, j ≠ i → cells'[j]? = cells[j]?) ∧
        ∃ r, cells'[i]? = some r ∧
          (r = original ∨ inside r = true) ∧
          ((tag = ExitKind.revertSeen ∨ tag = ExitKind.revertBoundary) →
            r = original) ∧
          (tag = ExitKind.normal →
            has_overlap r cells' = false ∧ inside r = true) := by
  induction fuel with
  | zero =>
    intro cells cell seen cells' tag hres hget hcell
    cases hb : (has_overlap cell cells || !(inside cell)) with
    | false =>
      rw [resolveCell_exit hb] at hres
      obtain ⟨hc, ht⟩ : cells = cells' ∧ ExitKind.normal = tag := by
        simpa using hres
      subst hc; subst ht
      simp only [Bool.or_eq_false_iff, Bool.not_eq_false'] at hb
      refine ⟨rfl, fun j _ => rfl, cell, hget, hcell, by simp, fun _ => ?_⟩
      exact ⟨hb.1, hb.2⟩
    | true =>
      rw [resolveCell_zero hb] at hres
      exact absurd hres (by simp)
  | succ fuel ih =>
    intro cells cell seen cells' tag hres hget hcell
    have hi : i < cells.length := lt_length_of_getElem? hget
    cases hb : (has_overlap cell cells || !(inside cell)) with
    | false =>
      rw [resolveCell_exit hb] at hres
      obtain ⟨hc, ht⟩ : cells = cells' ∧ ExitKind.normal = tag := by
        simpa using hres
      subst hc; subst ht
      simp only [Bool.or_eq_false_iff, Bool.not_eq_false'] at hb
      refine ⟨rfl, fun j _ => rfl, cell, hget, hcell, by simp, fun _ => ?_⟩
      exact ⟨hb.1, hb.2⟩
    | true =>
      cases hbd : compute_displacement cell inside cells q with
      | mk mv o =>
        cases o with
        | none =>
          rw [resolveCell_stuck hb hbd] at hres
          obtain ⟨hc, ht⟩ : cells = cells' ∧ ExitKind.stuck = tag := by
            simpa using hres
          subst hc; subst ht
          exact ⟨rfl, fun j _ => rfl, cell, hget, hcell, by simp, by simp⟩
        | some d =>
          by_cases hseen : (cell, mv) ∈ seen
          · rw [resolveCell_revertSeen hb hbd hseen] at hres
            obtain ⟨hc, ht⟩ :
                cells.set i original = cells' ∧ ExitKind.revertSeen = tag := by
              simpa using hres
            subst hc; subst ht
            refine ⟨List.length_set cells i original, fun j hj =>
              List.getElem?_set_ne (Ne.symm hj), original, ?_, Or.inl rfl,
              fun _ => rfl, by simp⟩
            exact List.getElem?_set_self hi
          · cases hin : inside (applyMove cell mv d) with
            | false =>
              rw [resolveCell_revertBoundary hb hbd hseen hin] at hres
              obtain ⟨hc, ht⟩ : cells.set i original = cells' ∧
                  ExitKind.revertBoundary = tag := by
                simpa using hres
              subst hc; subst ht
              refine ⟨List.length_set cells i original, fun j hj =>
                List.getElem?_set_ne (Ne.symm hj), original, ?_, Or.inl rfl,
                fun _ => rfl, by simp⟩
              exact List.getElem?_set_self hi
            | true =>
              rw [resolveCell_commit hb hbd hseen hin] at hres
              have hget' : (cells.set i (applyMove cell mv d))[i]? =
                  some (applyMove cell mv d) := List.getElem?_set_self hi
              obtain ⟨h1, h2, r, hr⟩ := ih (cells.set i (applyMove cell mv d))
                (applyMove cell mv d) ((cell, mv) :: seen) cells' tag hres
                hget' (Or.inr hin)
              refine ⟨by rw [h1, List.length_set], fun j hj => ?_, r, hr⟩
              rw [h2 j hj, List.getElem?_set_ne (Ne.symm hj)]

/-! ## The outer `for` loop -/

theorem stepAt_none {inside : Rect → Bool} {q : ℚ} {fuel : ℕ}
    {cells : List Rect} {i : ℕ} (hg : cells[i]? = none) :
    stepAt inside q fuel cells i = some (cells, ExitKind.oob) := by
  unfold stepAt
  rw [hg]

theorem stepAt_some {inside : Rect → Bool} {q : ℚ} {fuel : ℕ}
    {cells : List Rect} {i : ℕ} {cell : Rect} (hg : cells[i]? = some cell) :
    stepAt inside q fuel cells i =
      resolveCell inside q cell i fuel cells cell [] := by
  unfold stepAt
  rw [hg]

/-- One outer-loop iteration preserves the length and writes only index `i`. -/
theorem stepAt_frame {inside : Rect → Bool} {q : ℚ} {fuel : ℕ}
    {cells cells' : List Rect} {i : ℕ} {tag : ExitKind}
    (h : stepAt inside q fuel cells i = some (cells', tag)) :
    cells'.length = cells.length ∧ ∀ j, j ≠ i → cells'[j]? = cells[j]? := by
  cases hg : cells[i]? with
  | none =>
    rw [stepAt_none hg] at h
    obtain ⟨hc, -⟩ : cells = cells' ∧ ExitKind.oob = tag := by simpa using h
    subst hc
    exact ⟨rfl, fun j _ => rfl⟩
  | some cell =>
    rw [stepAt_some hg] at h
    obtain ⟨h1, h2, -⟩ :=
      resolveCell_main inside q cell i fuel cells cell [] cells' tag h hg
        (Or.inl rfl)
    exact ⟨h1, h2⟩

/-- What one outer-loop iteration leaves at index `i`. -/
theorem stepAt_at {inside : Rect → Bool} {q : ℚ} {fuel : ℕ}
    {cells cells' : List Rect} {i : ℕ} {tag : ExitKind} {cell : Rect}
    (h : stepAt inside q fuel cells i = some (cells', tag))
    (hg : cells[i]? = some cell) :
    ∃ r, cells'[i]? = some r ∧ (r = cell ∨ inside r = true) ∧
      ((tag = ExitKind.revertSeen ∨ tag = ExitKind.revertBoundary) →
        r = cell) ∧
      (tag = ExitKind.normal →
        has_overlap r cells' = false ∧ inside r = true) := by
  rw [stepAt_some hg] at h
  exact (resolveCell_main inside q cell i fuel cells cell [] cells' tag h hg
    (Or.inl rfl)).2.2

theorem runTo_succ (inside : Rect → Bool) (q : ℚ) (fuel : ℕ)
    (s : List Rect) (m : ℕ) :
    runTo inside q fuel s (m + 1) =
      (runTo inside q fuel s m).bind
        (fun cs => (stepAt inside q fuel cs m).map Prod.fst) := rfl

/-- Decompose a successful `m+1`-prefix run into an `m`-prefix run and one
step. -/
theorem runTo_succ_elim {inside : Rect → Bool} {q : ℚ} {fuel : ℕ}
    {s u : List Rect} {m : ℕ}
    (h : runTo inside q fuel s (m + 1) = some u) :
    ∃ w tag, runTo inside q fuel s m = some w ∧
      stepAt inside q fuel w m = some (u, tag) := by
  rw [runTo_succ] at h
  cases hw : runTo inside q fuel s m with
  | none => rw [hw] at h; simp at h
  | some w =>
    rw [hw] at h
    simp only [Option.some_bind] at h
    cases hs : stepAt inside q fuel w m with
    | none => rw [hs] at h; simp at h
    | some p =>
      obtain ⟨u', tag⟩ := p
      rw [hs] at h
      simp only [Option.map_some', Option.some.injEq] at h
      subst h
      exact ⟨w, tag, rfl, hs⟩

theorem runTo_length {inside : Rect → Bool} {q : ℚ} {fuel : ℕ}
    {s : List Rect} :
    ∀ {m : ℕ} {u : List Rect}, runTo inside q fuel s m = some u →
      u.length = s.length := by
  intro m
  induction m with
  | zero =>
    intro u hu
    obtain rfl : s = u := by simpa [runTo] using hu
    rfl
  | succ m ih =>
    intro u hu
    obtain ⟨w, tag, hw, hs⟩ := runTo_succ_elim hu
    rw [(stepAt_frame hs).1, ih hw]

/-- Indices at or beyond the number of processed cells are untouched. -/
theorem runTo_untouched {inside : Rect → Bool} {q : ℚ} {fuel : ℕ}
    {s : List Rect} :
    ∀ {m : ℕ} {u : List Rect}, runTo inside q fuel s m = some u →
      ∀ j, m ≤ j → u[j]? = s[j]? := by
  intro m
  induction m with
  | zero =>
    intro u hu j _
    obtain rfl : s = u := by simpa [runTo] using hu
    rfl
  | succ m ih =>
    intro u hu j hj
    obtain ⟨w, tag, hw, hs⟩ := runTo_succ_elim hu
    have hne : j ≠ m := by omega
    rw [(stepAt_frame hs).2 j hne]
    exact ih hw j (by omega)

/-- Once the outer loop has passed an index, later iterations never change
what that index holds. -/
theorem runTo_frame {inside : Rect → Bool} {q : ℚ} {fuel : ℕ}
    {s : List Rect} :
    ∀ (k : ℕ) {m : ℕ} {u v : List Rect},
      runTo inside q fuel s m = some u →
      runTo inside q fuel s (m + k) = some v →
      ∀ j, j < m → v[j]? = u[j]? := by
  intro k
  induction k with
  | zero =>
    intro m u v hu hv j _
    rw [Nat.add_zero, hu, Option.some.injEq] at hv
    rw [hv]
  | succ k ih =>
    intro m u v hu hv j hj
    rw [show m + (k + 1) = (m + k) + 1 from rfl] at hv
    obtain ⟨w, tag, hw, hs⟩ := runTo_succ_elim hv
    have hne : j ≠ m + k := by omega
    rw [(stepAt_frame hs).2 j hne]
    exact ih hu hw j hj

/-- Positional invariant for the whole run: every slot of a partial result
either still holds its snapped value or holds a boundary-checked position. -/
theorem runTo_inv {inside : Rect → Bool} {q : ℚ} {fuel : ℕ}
    {s : List Rect} :
    ∀ {m : ℕ} {u : List Rect}, runTo inside q fuel s m = some u →
      ∀ (i : ℕ) (r : Rect), u[i]? = some r →
        s[i]? = some r ∨ inside r = true := by
  intro m
  induction m with
  | zero =>
    intro u hu i r hr
    obtain rfl : s = u := by simpa [runTo] using hu
    exact Or.inl hr
  | succ m ih =>
    intro u hu i r hr
    obtain ⟨w, tag, hw, hs⟩ := runTo_succ_elim hu
    by_cases him : i = m
    · subst him
      cases hg : w[i]? with
      | none =>
        rw [stepAt_none hg] at hs
        obtain ⟨hc, -⟩ : w = u ∧ ExitKind.oob = tag := by simpa using hs
        subst hc
        exact ih hw i r hr
      | some cell =>
        obtain ⟨r', hr', hcase, -, -⟩ := stepAt_at hs hg
        have hre : r' = r := by
          rw [hr'] at hr
          simpa using hr
        rcases hcase with hrc | hrc
        · have hcr : cell = r := by rw [← hre, hrc]
          have hs' := ih hw i cell hg
          rw [hcr] at hs'
          exact hs'
        · exact Or.inr (hre ▸ hrc)
    · rw [(stepAt_frame hs).2 i him] at hr
      exact ih hw i r hr

/-! ## C1: the claimed dichotomy on the returned set, refuted and amended -/

unseal Rat.add Rat.sub Rat.mul Rat.inv in
/-- **C1 counterexample.** On three full-height cells inside the extent
boundary, the middle rectangle is returned at `(0,0,600,2000)`: it is not at
its snapped position `(580,0,1180,2000)`, and it still intersects the first
rectangle of the returned set — its loop committed one move and then got
stuck with every direction at infinite cost.  So the returned rectangle is
neither (a) contained and non-intersecting, nor (b) at its pre-resolution
position. -/
theorem C1_counterexample :
    resolve_overlaps inExtent 20 9
        [⟨0, 0, 560, 2000⟩, ⟨580, 0, 1180, 2000⟩, ⟨620, 0, 660, 2000⟩] =
      some [⟨0, 0, 560, 2000⟩, ⟨0, 0, 600, 2000⟩, ⟨620, 0, 660, 2000⟩] ∧
    ¬ ((inExtent (⟨0, 0, 600, 2000⟩ : Rect) = true ∧
          has_overlap ⟨0, 0, 600, 2000⟩
            [⟨0, 0, 560, 2000⟩, ⟨0, 0, 600, 2000⟩, ⟨620, 0, 660, 2000⟩] =
            false) ∨
        (⟨0, 0, 600, 2000⟩ : Rect) = snap_to_grid ⟨580, 0, 1180, 2000⟩ 20) := by
  decide

/-- **C1 (amended).** Every rectangle of the returned set is either at its
snapped (pre-resolution) position or at a position that passed the
boundary-containment check when committed; overlap-freedom is guaranteed
only at each rectangle's own loop exit (see C2), not in the final set,
because a later rectangle can get stuck on an earlier one. -/
theorem C1_amended (inside : Rect → Bool) (q : ℚ) (fuel : ℕ)
    (cells final : List Rect)
    (hrun : resolve_overlaps inside q fuel cells = some final) :
    ∀ (i : ℕ) (r : Rect), final[i]? = some r →
      (cells.map (fun c => snap_to_grid c q))[i]? = some r ∨
        inside r = true := by
  unfold resolve_overlaps at hrun
  intro i r hr
  exact runTo_inv hrun i r hr

unseal Rat.add Rat.sub Rat.mul Rat.inv in
/-- **C1 (amended) witness.** -/
theorem C1_amended_witness :
    resolve_overlaps trueInside 20 1 [⟨0, 0, 40, 40⟩] =
        some [⟨0, 0, 40, 40⟩] ∧
      ((([⟨0, 0, 40, 40⟩] : List Rect).map
            (fun c => snap_to_grid c 20))[0]? = some ⟨0, 0, 40, 40⟩ ∨
        trueInside ⟨0, 0, 40, 40⟩ = true) :=
  ⟨by decide,
    C1_amended trueInside 20 1 [⟨0, 0, 40, 40⟩] [⟨0, 0, 40, 40⟩] (by decide)
      0 ⟨0, 0, 40, 40⟩ (by decide)⟩

/-! ## C2: a normal exit is final only locally, refuted and amended -/

unseal Rat.add Rat.sub Rat.mul Rat.inv in
/-- **C2 counterexample.** The first rectangle's loop exits normally
(`RESOLVED`, its while-condition is false at its turn), yet in the final
returned set it intersects the second rectangle, which later got stuck on
top of it.  A normal exit guarantees nothing about the *final* set. -/
theorem C2_counterexample :
    ([⟨0, 0, 560, 2000⟩, ⟨580, 0, 1180, 2000⟩,
        ⟨620, 0, 660, 2000⟩] : List Rect).map (fun c => snap_to_grid c 20) =
      [⟨0, 0, 560, 2000⟩, ⟨580, 0, 1180, 2000⟩, ⟨620, 0, 660, 2000⟩] ∧
    stepAt inExtent 20 9
        [⟨0, 0, 560, 2000⟩, ⟨580, 0, 1180, 2000⟩, ⟨620, 0, 660, 2000⟩] 0 =
      some ([⟨0, 0, 560, 2000⟩, ⟨580, 0, 1180, 2000⟩, ⟨620, 0, 660, 2000⟩],
        ExitKind.normal) ∧
    resolve_overlaps inExtent 20 9
        [⟨0, 0, 560, 2000⟩, ⟨580, 0, 1180, 2000⟩, ⟨620, 0, 660, 2000⟩] =
      some [⟨0, 0, 560, 2000⟩, ⟨0, 0, 600, 2000⟩, ⟨620, 0, 660, 2000⟩] ∧
    has_overlap ⟨0, 0, 560, 2000⟩
      [⟨0, 0, 560, 2000⟩, ⟨0, 0, 600, 2000⟩, ⟨620, 0, 660, 2000⟩] = true := by
  decide

/-- **C2 (amended).** A rectangle whose loop exits normally is, *at that
exit*, contained in the boundary and intersecting no other rectangle of the
then-current set; its position is never changed afterwards (so containment
still holds in the final set), but later-processed rectangles may come to
intersect it. -/
theorem C2_amended (inside : Rect → Bool) (q : ℚ) (fuel m : ℕ)
    (cells u u' final : List Rect)
    (hm : m < cells.length)
    (hrunm : runTo inside q fuel (cells.map (fun c => snap_to_grid c q)) m =
      some u)
    (hstep : stepAt inside q fuel u m = some (u', ExitKind.normal))
    (hfull : resolve_overlaps inside q fuel cells = some final) :
    ∃ r, u'[m]? = some r ∧ final[m]? = some r ∧
      has_overlap r u' = false ∧ inside r = true := by
  have hlen : u.length = (cells.map (fun c => snap_to_grid c q)).length :=
    runTo_length hrunm
  have hmu : m < u.length := by
    rw [hlen, List.length_map]
    exact hm
  obtain ⟨cell, hg⟩ : ∃ cell, u[m]? = some cell :=
    ⟨u[m], List.getElem?_eq_getElem hmu⟩
  obtain ⟨r, hr', hcase, hrev, hnorm⟩ := stepAt_at hstep hg
  have hnm := hnorm rfl
  have hrun1 : runTo inside q fuel (cells.map (fun c => snap_to_grid c q))
      (m + 1) = some u' := by
    rw [runTo_succ, hrunm]
    simp [hstep]
  unfold resolve_overlaps at hfull
  have hfin : final[m]? = u'[m]? := by
    have hkey : (cells.map (fun c => snap_to_grid c q)).length =
        (m + 1) + ((cells.map (fun c => snap_to_grid c q)).length -
          (m + 1)) := by
      rw [List.length_map]
      omega
    rw [hkey] at hfull
    exact runTo_frame _ hrun1 hfull m (by omega)
  exact ⟨r, hr', by rw [hfin, hr'], hnm.1, hnm.2⟩

unseal Rat.add Rat.sub Rat.mul Rat.inv in
/-- **C2 (amended) witness.** -/
theorem C2_amended_witness :
    ∃ r, ([⟨0, 0, 100, 40⟩] : List Rect)[0]? = some r ∧
      ([⟨0, 0, 100, 40⟩] : List Rect)[0]? = some r ∧
      has_overlap r [⟨0, 0, 100, 40⟩] = false ∧ trueInside r = true :=
  C2_amended trueInside 20 1 0 [⟨0, 0, 100, 40⟩] [⟨0, 0, 100, 40⟩]
    [⟨0, 0, 100, 40⟩] [⟨0, 0, 100, 40⟩] (by decide) (by decide) (by decide)
    (by decide)

/-! ## C3: a reverted rectangle is restored to its snapped position -/

/-- **C3.** If the loop for the rectangle at index `m` exits by a revert —
deadlock detection via the memo set, or a committed move leaving the true
boundary — then in the final returned set that rectangle sits exactly at
its position immediately after the initial grid snap. -/
theorem C3_revert_restores_snapped (inside : Rect → Bool) (q : ℚ)
    (fuel m : ℕ) (cells u u' final : List Rect) (tag : ExitKind)
    (hrunm : runTo inside q fuel (cells.map (fun c => snap_to_grid c q)) m =
      some u)
    (hstep : stepAt inside q fuel u m = some (u', tag))
    (htag : tag = ExitKind.revertSeen ∨ tag = ExitKind.revertBoundary)
    (hfull : resolve_overlaps inside q fuel cells = some final)
    (hm : m < cells.length) :
    final[m]? = (cells.map (fun c => snap_to_grid c q))[m]? := by
  have hlen : u.length = (cells.map (fun c => snap_to_grid c q)).length :=
    runTo_length hrunm
  have hmu : m < u.length := by
    rw [hlen, List.length_map]
    exact hm
  have hus : u[m]? = (cells.map (fun c => snap_to_grid c q))[m]? :=
    runTo_untouched hrunm m (le_refl m)
  obtain ⟨cell, hg⟩ : ∃ cell, u[m]? = some cell :=
    ⟨u[m], List.getElem?_eq_getElem hmu⟩
  obtain ⟨r, hr', hcase, hrev, -⟩ := stepAt_at hstep hg
  have hro : r = cell := hrev htag
  have hrun1 : runTo inside q fuel (cells.map (fun c => snap_to_grid c q))
      (m + 1) = some u' := by
    rw [runTo_succ, hrunm]
    simp [hstep]
  unfold resolve_overlaps at hfull
  have hfin : final[m]? = u'[m]? := by
    have hkey : (cells.map (fun c => snap_to_grid c q)).length =
        (m + 1) + ((cells.map (fun c => snap_to_grid c q)).length -
          (m + 1)) := by
      rw [List.length_map]
      omega
    rw [hkey] at hfull
    exact runTo_frame _ hrun1 hfull m (by omega)
  rw [hfin, hr', hro, ← hg, hus]

unseal Rat.add Rat.sub Rat.mul Rat.inv in
/-- **C3 witness.** A boundary admitting only rectangles below `y = 100`:
the first cell overlaps the second, its cheapest extent-feasible move is up
by 120, the moved position leaves the boundary, so the cell is reverted to
its snapped position, which the final set indeed holds. -/
theorem C3_witness :
    resolve_overlaps lowInside 20 5 [⟨0, 0, 100, 100⟩, ⟨50, 0, 150, 100⟩] =
      some [⟨0, 0, 100, 100⟩, ⟨120, 0, 220, 100⟩] ∧
    ([⟨0, 0, 100, 100⟩, ⟨120, 0, 220, 100⟩] : List Rect)[0]? =
      (([⟨0, 0, 100, 100⟩, ⟨50, 0, 150, 100⟩] : List Rect).map
        (fun c => snap_to_grid c 20))[0]? :=
  ⟨by decide,
    C3_revert_restores_snapped lowInside 20 5 0
      [⟨0, 0, 100, 100⟩, ⟨50, 0, 150, 100⟩]
      [⟨0, 0, 100, 100⟩, ⟨40, 0, 140, 100⟩]
      [⟨0, 0, 100, 100⟩, ⟨40, 0, 140, 100⟩]
      [⟨0, 0, 100, 100⟩, ⟨120, 0, 220, 100⟩]
      ExitKind.revertBoundary (by decide) (by decide) (Or.inr rfl)
      (by decide) (by decide)⟩

/-! ## C8: the engine returns a fresh list; the input keeps the initial
positions -/

unseal Rat.add Rat.sub Rat.mul Rat.inv in
/-- **C8 counterexample.** `resolve_overlaps` has an explicit return value
(`return updated_cells`) built from a snapped copy of the input; the
caller's list is left untouched and does *not* hold the final positions:
here the result differs from the input already after snapping, and the
program itself relies on the input being unchanged (it passes
`standard_cells` as the *initial* positions to the movement reporter after
legalization). -/
theorem C8_counterexample :
    resolve_overlaps trueInside 20 1 [⟨5, 5, 105, 45⟩] =
      some [⟨0, 0, 100, 40⟩] ∧
    ([⟨0, 0, 100, 40⟩] : List Rect) ≠ [⟨5, 5, 105, 45⟩] := by
  decide

/-- **C8 (amended).** `resolve_overlaps` is a function of its input
returning a *new* list of the same length holding the final positions; the
input collection itself is not mutated and retains the initial positions
for the movement report. -/
theorem C8_amended (inside : Rect → Bool) (q : ℚ) (fuel : ℕ)
    (cells final : List Rect)
    (h : resolve_overlaps inside q fuel cells = some final) :
    final.length = cells.length := by
  unfold resolve_overlaps at h
  rw [runTo_length h, List.length_map]

unseal Rat.add Rat.sub Rat.mul Rat.inv in
/-- **C8 (amended) witness.** -/
theorem C8_amended_witness :
    ([⟨0, 0, 100, 40⟩] : List Rect).length =
      ([⟨5, 5, 105, 45⟩] : List Rect).length :=
  C8_amended trueInside 20 1 [⟨5, 5, 105, 45⟩] [⟨0, 0, 100, 40⟩] (by decide)

/-! ## C9: an overlap-free cell gets infinite cost and is never moved for a
boundary violation alone -/

theorem compute_displacement_no_overlap (cell : Rect) (inside : Rect → Bool)
    (cells : List Rect) (q : ℚ) (hov : has_overlap cell cells = false) :
    compute_displacement cell inside cells q = (Dir.left, none) := by
  have hall : ∀ o ∈ cells, (o != cell && intersects cell o) = false := by
    simp only [has_overlap, List.any_eq_false] at hov
    intro o ho
    exact Bool.eq_false_iff.mpr (hov o ho)
  have hfil : cells.filter (fun o => o != cell && intersects cell o) = [] :=
    List.filter_eq_nil.mpr (fun o ho => by simp [hall o ho])
  have hraw : ∀ d, dirCost (scanCosts cell cells q) d = none := by
    intro d
    rw [scanCosts_eq_raw]
    unfold specRawCost overlappers
    rw [hfil]
    rfl
  rcases hc : scanCosts cell cells q with ⟨cl, cr, cu, cd⟩
  have h1 := hraw Dir.left
  have h2 := hraw Dir.right
  have h3 := hraw Dir.up
  have h4 := hraw Dir.down
  rw [hc] at h1 h2 h3 h4
  simp only [dirCost] at h1 h2 h3 h4
  subst h1; subst h2; subst h3; subst h4
  unfold compute_displacement
  rw [hc]
  rfl

/-- **C9.** A cell intersecting no other cell of the working set receives an
infinite displacement cost; consequently, a snapped cell that is
overlap-free but outside the boundary exits its resolution loop on the
first iteration with zero moves applied, leaving the shared list — and in
particular its own snapped position — unchanged.  The engine never moves a
cell to fix a boundary violation alone. -/
theorem C9_overlap_free_stuck (inside : Rect → Bool) (q : ℚ) (fuel : ℕ)
    (cells : List Rect) (i : ℕ) (cell : Rect)
    (hg : cells[i]? = some cell)
    (hov : has_overlap cell cells = false) :
    (compute_displacement cell inside cells q).2 = none ∧
      (inside cell = false →
        stepAt inside q (fuel + 1) cells i = some (cells, ExitKind.stuck)) := by
  have hcd := compute_displacement_no_overlap cell inside cells q hov
  refine ⟨by rw [hcd], fun hin => ?_⟩
  rw [stepAt_some hg]
  have hb : (has_overlap cell cells || !(inside cell)) = true := by
    rw [hov, hin]
    rfl
  exact resolveCell_stuck hb hcd

unseal Rat.add Rat.sub Rat.mul Rat.inv in
/-- **C9 witness.** A single snapped cell outside a narrow boundary: no
overlap, infinite cost, loop exits stuck with the list unchanged. -/
theorem C9_witness :
    narrowInside ⟨0, 0, 100, 40⟩ = false ∧
    (compute_displacement ⟨0, 0, 100, 40⟩ narrowInside
      [⟨0, 0, 100, 40⟩] 20).2 = none ∧
    stepAt narrowInside 20 1 [⟨0, 0, 100, 40⟩] 0 =
      some ([⟨0, 0, 100, 40⟩], ExitKind.stuck) :=
  ⟨by decide,
    (C9_overlap_free_stuck narrowInside 20 0 [⟨0, 0, 100, 40⟩] 0
      ⟨0, 0, 100, 40⟩ (by decide) (by decide)).1,
    (C9_overlap_free_stuck narrowInside 20 0 [⟨0, 0, 100, 40⟩] 0
      ⟨0, 0, 100, 40⟩ (by decide) (by decide)).2 (by decide)⟩

/-! ## C10: geometrically identical cells treat each other as themselves -/

theorem resolveCell_no_overlap (inside : Rect → Bool) (q : ℚ)
    (original : Rect) (i fuel : ℕ) (cells : List Rect) (cell : Rect)
    (seen : List (Rect × Dir)) (hov : has_overlap cell cells = false) :
    ∃ tag, resolveCell inside q original i (fuel + 1) cells cell seen =
      some (cells, tag) := by
  cases hin : inside cell with
  | true =>
    refine ⟨ExitKind.normal, resolveCell_exit ?_⟩
    rw [hov, hin]
    rfl
  | false =>
    exact ⟨ExitKind.stuck, resolveCell_stuck (by rw [hov, hin]; rfl)
      (compute_displacement_no_overlap cell inside cells q hov)⟩

/-- **C10.** Two coincident rectangles (same coordinates at distinct
indices) are excluded from each other's overlap scans by the value
inequality `other != cell`: `has_overlap` reports no overlap between them
(absent a third overlapping cell), `compute_displacement` returns infinite
cost, and `resolve_overlaps` leaves both at the common snapped position
rather than separating them — for every boundary oracle and every fuel. -/
theorem C10_coincident (inside : Rect → Bool) (q : ℚ) (fuel : ℕ) (r : Rect) :
    has_overlap (snap_to_grid r q)
        [snap_to_grid r q, snap_to_grid r q] = false ∧
    compute_displacement (snap_to_grid r q) inside
        [snap_to_grid r q, snap_to_grid r q] q = (Dir.left, none) ∧
    resolve_overlaps inside q (fuel + 1) [r, r] =
      some [snap_to_grid r q, snap_to_grid r q] := by
  have hov : has_overlap (snap_to_grid r q)
      [snap_to_grid r q, snap_to_grid r q] = false := by
    simp [has_overlap]
  refine ⟨hov, compute_displacement_no_overlap _ inside _ q hov, ?_⟩
  unfold resolve_overlaps
  show runTo inside q (fuel + 1) [snap_to_grid r q, snap_to_grid r q] 2 =
    some [snap_to_grid r q, snap_to_grid r q]
  obtain ⟨t0, h0⟩ := resolveCell_no_overlap inside q (snap_to_grid r q) 0
    fuel [snap_to_grid r q, snap_to_grid r q] (snap_to_grid r q) [] hov
  obtain ⟨t1, h1⟩ := resolveCell_no_overlap inside q (snap_to_grid r q) 1
    fuel [snap_to_grid r q, snap_to_grid r q] (snap_to_grid r q) [] hov
  have hst0 : stepAt inside q (fuel + 1)
      [snap_to_grid r q, snap_to_grid r q] 0 =
      some ([snap_to_grid r q, snap_to_grid r q], t0) := by
    rw [stepAt_some rfl]
    exact h0
  have hst1 : stepAt inside q (fuel + 1)
      [snap_to_grid r q, snap_to_grid r q] 1 =
      some ([snap_to_grid r q, snap_to_grid r q], t1) := by
    rw [stepAt_some rfl]
    exact h1
  rw [runTo_succ inside q (fuel + 1) _ 1, runTo_succ inside q (fuel + 1) _ 0]
  simp [runTo, hst0, hst1]

/-! ## C5: termination — helper lemmas -/

theorem rect_eq {a b : Rect} (h1 : a.minx = b.minx) (h2 : a.miny = b.miny)
    (h3 : a.maxx = b.maxx) (h4 : a.maxy = b.maxy) : a = b := by
  cases a
  cases b
  simp_all

/-- The returned cost is the filtered cost of the returned direction. -/
theorem compute_displacement_snd {cell : Rect} {inside : Rect → Bool}
    {cells : List Rect} {q : ℚ} {mv : Dir} {o : Option ℚ}
    (h : compute_displacement cell inside cells q = (mv, o)) :
    dirCost (filterCosts cell (scanCosts cell cells q)) mv = o := by
  unfold compute_displacement at h
  rcases bestDir_cases (filterCosts cell (scanCosts cell cells q)) with
    hb | hb | hb | hb <;>
    (rw [hb] at h
     obtain ⟨h1, h2⟩ : _ ∧ _ := by simpa [Prod.ext_iff] using h
     subst h1
     subst h2
     rfl)

/-- A finite filtered cost is achieved by some other intersecting rectangle
of the set. -/
theorem filter_some_achieved {cell : Rect} {cells : List Rect} {q : ℚ}
    {d : Dir} {v : ℚ}
    (h : dirCost (filterCosts cell (scanCosts cell cells q)) d = some v) :
    ∃ o ∈ cells, (o != cell && intersects cell o) = true ∧
      sepDist cell q d o = v := by
  rw [filterCosts_eq, scanCosts_eq_raw] at h
  cases hr : specRawCost cell cells q d with
  | none => rw [hr] at h; simp at h
  | some v' =>
    rw [hr] at h
    have hv : v' = v := by
      by_cases he : edgeOk cell d v' = true
      · simpa [he] using h
      · rw [Bool.not_eq_true] at he
        simp [he] at h
    subst hv
    unfold specRawCost at hr
    obtain ⟨o, ho, hso⟩ := List.mem_map.mp (listMin_mem hr)
    obtain ⟨hoc, hgo⟩ := List.mem_filter.mp ho
    exact ⟨o, hoc, hgo, hso⟩

/-- An element of the working list distinct in value from the moving cell
is an element of the loop-entry list `F`. -/
theorem mem_F_of_ne {cells F : List Rect} {i : ℕ} {cell o : Rect}
    (h2 : ∀ j, j ≠ i → cells[j]? = F[j]?) (h3 : cells[i]? = some cell)
    (ho : o ∈ cells) (hne : o ≠ cell) : o ∈ F := by
  obtain ⟨j, hj⟩ := List.mem_iff_getElem?.mp ho
  by_cases hji : j = i
  · subst hji
    rw [hj] at h3
    exact absurd (by simpa using h3) hne
  · exact List.mem_iff_getElem?.mpr ⟨j, by rw [← h2 j hji, hj]⟩

theorem applyMove_width (r : Rect) (d : Dir) (x : ℚ) :
    (applyMove r d x).maxx - (applyMove r d x).minx = r.maxx - r.minx := by
  cases d <;> simp [applyMove, translate] <;> ring

theorem applyMove_height (r : Rect) (d : Dir) (x : ℚ) :
    (applyMove r d x).maxy - (applyMove r d x).miny = r.maxy - r.miny := by
  cases d <;> simp [applyMove, translate] <;> ring

theorem mem_xCands_lo {F : List Rect} {o : Rect} (c0 : Rect) (q w : ℚ)
    (ho : o ∈ F) : o.minx - q - w ∈ xCands F c0 q w :=
  Finset.mem_insert_of_mem (Finset.mem_union_left _
    (List.mem_toFinset.mpr (List.mem_map.mpr ⟨o, ho, rfl⟩)))

theorem mem_xCands_hi {F : List Rect} {o : Rect} (c0 : Rect) (q w : ℚ)
    (ho : o ∈ F) : o.maxx + q ∈ xCands F c0 q w :=
  Finset.mem_insert_of_mem (Finset.mem_union_right _
    (List.mem_toFinset.mpr (List.mem_map.mpr ⟨o, ho, rfl⟩)))

theorem mem_yCands_lo {F : List Rect} {o : Rect} (c0 : Rect) (q h : ℚ)
    (ho : o ∈ F) : o.miny - q - h ∈ yCands F c0 q h :=
  Finset.mem_insert_of_mem (Finset.mem_union_left _
    (List.mem_toFinset.mpr (List.mem_map.mpr ⟨o, ho, rfl⟩)))

theorem mem_yCands_hi {F : List Rect} {o : Rect} (c0 : Rect) (q h : ℚ)
    (ho : o ∈ F) : o.maxy + q ∈ yCands F c0 q h :=
  Finset.mem_insert_of_mem (Finset.mem_union_right _
    (List.mem_toFinset.mpr (List.mem_map.mpr ⟨o, ho, rfl⟩)))

theorem mem_dirAll (d : Dir) : d ∈ dirAll := by
  cases d <;> simp [dirAll]

theorem xCands_card (F : List Rect) (c0 : Rect) (q w : ℚ) :
    (xCands F c0 q w).card ≤ 2 * F.length + 1 := by
  unfold xCands
  calc (insert c0.minx ((F.map fun o => o.minx - q - w).toFinset ∪
        (F.map fun o => o.maxx + q).toFinset)).card
      ≤ ((F.map fun o => o.minx - q - w).toFinset ∪
          (F.map fun o => o.maxx + q).toFinset).card + 1 :=
        Finset.card_insert_le _ _
    _ ≤ ((F.map fun o => o.minx - q - w).toFinset.card +
          (F.map fun o => o.maxx + q).toFinset.card) + 1 := by
        exact Nat.add_le_add_right (Finset.card_union_le _ _) 1
    _ ≤ (F.length + F.length) + 1 := by
        have hc1 := List.toFinset_card_le (F.map fun o => o.minx - q - w)
        have hc2 := List.toFinset_card_le (F.map fun o => o.maxx + q)
        rw [List.length_map] at hc1 hc2
        omega
    _ ≤ 2 * F.length + 1 := by omega

theorem yCands_card (F : List Rect) (c0 : Rect) (q h : ℚ) :
    (yCands F c0 q h).card ≤ 2 * F.length + 1 := by
  unfold yCands
  calc (insert c0.miny ((F.map fun o => o.miny - q - h).toFinset ∪
        (F.map fun o => o.maxy + q).toFinset)).card
      ≤ ((F.map fun o => o.miny - q - h).toFinset ∪
          (F.map fun o => o.maxy + q).toFinset).card + 1 :=
        Finset.card_insert_le _ _
    _ ≤ ((F.map fun o => o.miny - q - h).toFinset.card +
          (F.map fun o => o.maxy + q).toFinset.card) + 1 := by
        exact Nat.add_le_add_right (Finset.card_union_le _ _) 1
    _ ≤ (F.length + F.length) + 1 := by
        have hc1 := List.toFinset_card_le (F.map fun o => o.miny - q - h)
        have hc2 := List.toFinset_card_le (F.map fun o => o.maxy + q)
        rw [List.length_map] at hc1 hc2
        omega
    _ ≤ 2 * F.length + 1 := by omega

theorem keySet_card (F : List Rect) (c0 : Rect) (q w h : ℚ) :
    (keySet F c0 q w h).card ≤ 4 * (2 * F.length + 1) ^ 2 := by
  unfold keySet
  rw [Finset.card_product, Finset.card_product]
  have hd : dirAll.card = 4 := by decide
  rw [hd]
  have hx := xCands_card F c0 q w
  have hy := yCands_card F c0 q h
  calc (xCands F c0 q w).card * (yCands F c0 q h).card * 4
      ≤ (2 * F.length + 1) * (2 * F.length + 1) * 4 :=
        Nat.mul_le_mul_right 4 (Nat.mul_le_mul hx hy)
    _ = 4 * (2 * F.length + 1) ^ 2 := by ring

/-- A memo key for the current position is genuinely new when the pair
itself is not in the memo list (positions of equal lower-left corner and
equal rigid dimensions coincide). -/
theorem seenKey_not_mem {cell : Rect} {mv : Dir} {seen : List (Rect × Dir)}
    {w ht : ℚ}
    (hseen : (cell, mv) ∉ seen)
    (hdims : ∀ p ∈ seen,
      p.1.maxx - p.1.minx = w ∧ p.1.maxy - p.1.miny = ht)
    (hcw : cell.maxx - cell.minx = w) (hch : cell.maxy - cell.miny = ht) :
    seenKey (cell, mv) ∉ (seen.map seenKey).toFinset := by
  intro hmem
  obtain ⟨p, hp, hpk⟩ := List.mem_map.mp (List.mem_toFinset.mp hmem)
  simp only [seenKey, Prod.mk.injEq] at hpk
  obtain ⟨⟨hx, hy⟩, hd⟩ := hpk
  obtain ⟨hw, hh⟩ := hdims p hp
  have hp1 : p.1 = cell := rect_eq hx hy (by linarith) (by linarith)
  have hpc : p = (cell, mv) := by
    obtain ⟨p1, p2⟩ := p
    simp_all
  rw [hpc] at hp
  exact hseen hp

/-- **Single-cell termination.** During one rectangle's loop the other list
entries are fixed; every committed move lands the rectangle's lower-left
corner in the finite candidate grid `xCands × yCands`, and every iteration
that continues records a fresh memo key from the finite `keySet`.  So with
fuel exceeding the number of unrecorded keys the loop always reaches one of
its exits. -/
theorem resolveCell_terminates (inside : Rect → Bool) (q : ℚ) (orig : Rect)
    (i : ℕ) (F : List Rect) (w ht : ℚ) :
    ∀ (fuel : ℕ) (cells : List Rect) (cell : Rect)
      (seen : List (Rect × Dir)),
      cells.length = F.length →
      (∀ j, j ≠ i → cells[j]? = F[j]?) →
      cells[i]? = some cell →
      cell.maxx - cell.minx = w →
      cell.maxy - cell.miny = ht →
      cell.minx ∈ xCands F orig q w →
      cell.miny ∈ yCands F orig q ht →
      (∀ p ∈ seen,
        p.1.maxx - p.1.minx = w ∧ p.1.maxy - p.1.miny = ht) →
      (seen.map seenKey).toFinset ⊆ keySet F orig q w ht →
      (keySet F orig q w ht).card < fuel + (seen.map seenKey).toFinset.card →
      (resolveCell inside q orig i fuel cells cell seen).isSome = true := by
  intro fuel
  induction fuel with
  | zero =>
    intro cells cell seen h1 h2 h3 h4 h5 h6 h7 h8 h9 h10
    have hle := Finset.card_le_card h9
    omega
  | succ fuel ih =>
    intro cells cell seen h1 h2 h3 h4 h5 h6 h7 h8 h9 h10
    cases hb : (has_overlap cell cells || !(inside cell)) with
    | false =>
      rw [resolveCell_exit hb]
      rfl
    | true =>
      cases hbd : compute_displacement cell inside cells q with
      | mk mv o =>
        cases o with
        | none =>
          rw [resolveCell_stuck hb hbd]
          rfl
        | some dcost =>
          by_cases hseen : (cell, mv) ∈ seen
          · rw [resolveCell_revertSeen hb hbd hseen]
            rfl
          · cases hin : inside (applyMove cell mv dcost) with
            | false =>
              rw [resolveCell_revertBoundary hb hbd hseen hin]
              rfl
            | true =>
              rw [resolveCell_commit hb hbd hseen hin]
              have hi : i < cells.length := lt_length_of_getElem? h3
              obtain ⟨o, hoc, hguard, hsep⟩ :=
                filter_some_achieved (compute_displacement_snd hbd)
              have honeq : o ≠ cell := by
                have hbne : (o != cell) = true := by
                  rcases Bool.and_eq_true_iff.mp hguard with ⟨hb1, -⟩
                  exact hb1
                exact bne_iff_ne.mp hbne
              have hoF : o ∈ F := mem_F_of_ne h2 h3 hoc honeq
              have hmemX : (applyMove cell mv dcost).minx ∈
                    xCands F orig q w ∧
                  (applyMove cell mv dcost).miny ∈ yCands F orig q ht := by
                cases mv with
                | left =>
                  constructor
                  · have hmx : (applyMove cell Dir.left dcost).minx =
                        o.minx - q - w := by
                      simp only [applyMove, translate, sepDist] at hsep ⊢
                      linarith
                    rw [hmx]
                    exact mem_xCands_lo orig q w hoF
                  · have hmy : (applyMove cell Dir.left dcost).miny =
                        cell.miny := by
                      simp [applyMove, translate]
                    rw [hmy]
                    exact h7
                | right =>
                  constructor
                  · have hmx : (applyMove cell Dir.right dcost).minx =
                        o.maxx + q := by
                      simp only [applyMove, translate, sepDist] at hsep ⊢
                      linarith
                    rw [hmx]
                    exact mem_xCands_hi orig q w hoF
                  · have hmy : (applyMove cell Dir.right dcost).miny =
                        cell.miny := by
                      simp [applyMove, translate]
                    rw [hmy]
                    exact h7
                | up =>
                  constructor
                  · have hmx : (applyMove cell Dir.up dcost).minx =
                        cell.minx := by
                      simp [applyMove, translate]
                    rw [hmx]
                    exact h6
                  · have hmy : (applyMove cell Dir.up dcost).miny =
                        o.maxy + q := by
                      simp only [applyMove, translate, sepDist] at hsep ⊢
                      linarith
                    rw [hmy]
                    exact mem_yCands_hi orig q ht hoF
                | down =>
                  constructor
                  · have hmx : (applyMove cell Dir.down dcost).minx =
                        cell.minx := by
                      simp [applyMove, translate]
                    rw [hmx]
                    exact h6
                  · have hmy : (applyMove cell Dir.down dcost).miny =
                        o.miny - q - ht := by
                      simp only [applyMove, translate, sepDist] at hsep ⊢
                      linarith
                    rw [hmy]
                    exact mem_yCands_lo orig q ht hoF
              have hkeyK : seenKey (cell, mv) ∈ keySet F orig q w ht := by
                unfold keySet
                refine Finset.mem_product.mpr ⟨?_, mem_dirAll mv⟩
                exact Finset.mem_product.mpr ⟨h6, h7⟩
              have hnew := seenKey_not_mem hseen h8 h4 h5
              apply ih (cells.set i (applyMove cell mv dcost))
                (applyMove cell mv dcost) ((cell, mv) :: seen)
              · rw [List.length_set]
                exact h1
              · intro j hj
                rw [List.getElem?_set_ne (Ne.symm hj)]
                exact h2 j hj
              · exact List.getElem?_set_self hi
              · rw [applyMove_width]
                exact h4
              · rw [applyMove_height]
                exact h5
              · exact hmemX.1
              · exact hmemX.2
              · intro p hp
                rcases List.mem_cons.mp hp with hp | hp
                · rw [hp]
                  exact ⟨h4, h5⟩
                · exact h8 p hp
              · rw [List.map_cons, List.toFinset_cons]
                exact Finset.insert_subset_iff.mpr ⟨hkeyK, h9⟩
              · rw [List.map_cons, List.toFinset_cons,
                  Finset.card_insert_of_not_mem hnew]
                omega

/-- One outer-loop iteration always succeeds with the uniform fuel bound. -/
theorem stepAt_isSome (inside : Rect → Bool) (q : ℚ) (cs : List Rect)
    (i : ℕ) (fuel : ℕ) (hfuel : 4 * (2 * cs.length + 1) ^ 2 < fuel) :
    (stepAt inside q fuel cs i).isSome = true := by
  cases hg : cs[i]? with
  | none =>
    rw [stepAt_none hg]
    rfl
  | some cell =>
    rw [stepAt_some hg]
    apply resolveCell_terminates inside q cell i cs
      (cell.maxx - cell.minx) (cell.maxy - cell.miny) fuel cs cell []
      rfl (fun j _ => rfl) hg rfl rfl
      (Finset.mem_insert_self _ _) (Finset.mem_insert_self _ _)
      (fun p hp => absurd hp (List.not_mem_nil p))
      (by simp)
    have hcard := keySet_card cs cell q
      (cell.maxx - cell.minx) (cell.maxy - cell.miny)
    simp only [List.map_nil, List.toFinset_nil, Finset.card_empty]
    omega

/-- Every prefix of the run succeeds with the uniform fuel bound. -/
theorem runTo_isSome (inside : Rect → Bool) (q : ℚ) (s : List Rect)
    (fuel : ℕ) (hfuel : 4 * (2 * s.length + 1) ^ 2 < fuel) :
    ∀ m, (runTo inside q fuel s m).isSome = true := by
  intro m
  induction m with
  | zero => rfl
  | succ m ih =>
    rw [runTo_succ]
    cases hw : runTo inside q fuel s m with
    | none =>
      rw [hw] at ih
      exact absurd ih (by simp)
    | some w =>
      have hwl : w.length = s.length := runTo_length hw
      have hst := stepAt_isSome inside q w m fuel (by rw [hwl]; exact hfuel)
      cases hs : stepAt inside q fuel w m with
      | none =>
        rw [hs] at hst
        simp at hst
      | some p =>
        simp [hs]

/-- **C5.** For every input cell list, boundary oracle and positive grid
quantum, `resolve_overlaps` terminates when given the fuel
`termFuel n = 4·(2n+1)² + 1`, one more than the number of distinct
`(position, direction)` memo keys any single rectangle's loop can reach:
each loop iteration either exits or records a fresh key from that finite
set, so no rectangle's loop — even one with no feasible non-colliding,
in-boundary position — runs forever. -/
theorem C5_terminates (inside : Rect → Bool) (q : ℚ) (cells : List Rect)
    (hq : 0 < q) :
    (resolve_overlaps inside q (termFuel cells.length) cells).isSome =
      true := by
  unfold resolve_overlaps
  apply runTo_isSome
  rw [List.length_map]
  exact Nat.lt_succ_self _

unseal Rat.add Rat.sub Rat.mul Rat.inv in
/-- **C5 witness.** Two overlapping cells, boundary accepting everything:
the run with the computed fuel bound `termFuel 2 = 101` returns a result. -/
theorem C5_terminates_witness :
    (0 : ℚ) < 20 ∧
      (resolve_overlaps trueInside 20
        (termFuel ([⟨0, 0, 40, 40⟩, ⟨20, 0, 60, 40⟩] : List Rect).length)
        [⟨0, 0, 40, 40⟩, ⟨20, 0, 60, 40⟩]).isSome = true :=
  ⟨by norm_num,
    C5_terminates trueInside 20 [⟨0, 0, 40, 40⟩, ⟨20, 0, 60, 40⟩]
      (by norm_num)⟩

end Legalizer
